import Mathlib

/-!
A verification development for `lock.py`, a script that turns resolved,
pinned requirement lines into a lock document.

Physical text lines are modelled as `List Char`.  The Python string
operations used by the script (strip, split, partition, startswith,
endswith) are given explicit executable definitions below, and each
function of the script is translated into a Lean function over them:

* `iter_candidate_lines` models `_iter_candidate_lines` (backslash
  continuation joining, blank and comment dropping);
* `iter_parents` models `_iter_parents`;
* `parse_candidate_line` models one iteration of the loop body of
  `_iter_candidates`, threading the `parents` local variable, which in
  the Python code is assigned only inside the `via` branch and therefore
  persists from one loop iteration to the next (and is unbound before
  the first assignment);
* `iter_candidates` models `_iter_candidates`;
* `build_lock` models `_build_lock`;
* `serializeLock` models the observable output of `_write_lock`, namely
  the lock document with every mapping put into sorted key order, which
  is what `json.dump` with `sort_keys=True` serializes.

The external library calls `packaging.utils.canonicalize_name` and
`packaging.version.Version` are modelled from the packaging library:
`canonicalize_name` replaces each maximal run of the characters
`-`, `_`, `.` by a single `-` and lowercases; `parseVersion` follows the
PEP 440 grammar (epoch, release, pre, post, dev, local segments with
their alternate spellings), matching alternation greedily longest first.
-/

set_option maxHeartbeats 1000000

namespace ReqLock

/-- ASCII whitespace recognized by Python `str.strip` and `str.split`. -/
def pyIsSpace (c : Char) : Bool :=
  c = ' ' || c = '\t' || c = '\n' || c = '\r' || c = Char.ofNat 11 || c = Char.ofNat 12

/-- Python `str.lstrip()`. -/
def pyLStrip (l : List Char) : List Char := l.dropWhile pyIsSpace

/-- Python `str.rstrip()`. -/
def pyRStrip (l : List Char) : List Char := (l.reverse.dropWhile pyIsSpace).reverse

/-- Python `str.strip()`. -/
def pyStrip (l : List Char) : List Char := pyRStrip (pyLStrip l)

/-- Worker for `pySplitWs`; `acc` holds the current token reversed. -/
def pySplitWsGo (acc : List Char) : List Char → List (List Char)
  | [] => if acc = [] then [] else [acc.reverse]
  | c :: cs =>
    if pyIsSpace c then
      if acc = [] then pySplitWsGo [] cs else acc.reverse :: pySplitWsGo [] cs
    else pySplitWsGo (c :: acc) cs

/-- Python `str.split()` with no arguments: split on whitespace runs,
dropping empty tokens. -/
def pySplitWs (l : List Char) : List (List Char) := pySplitWsGo [] l

/-- Worker for `pySplitOnce`. -/
def pySplitOnceGo (sep : Char) (acc : List Char) : List Char → Option (List Char × List Char)
  | [] => none
  | c :: cs => if c = sep then some (acc.reverse, cs) else pySplitOnceGo sep (c :: acc) cs

/-- Split at the first occurrence of the character `sep`; `none` when the
character does not occur.  Models Python `str.split(sep, 1)` and, with
`sep` fixed to a hash mark, `str.partition`. -/
def pySplitOnce (sep : Char) (l : List Char) : Option (List Char × List Char) :=
  pySplitOnceGo sep [] l

/-- Python `raw_line.partition` at the first hash mark, keeping the part
before and the part after; when there is no hash mark the second
component is empty, exactly as the Python code then sees an empty
comment string. -/
def pyPartitionHash (l : List Char) : List Char × List Char :=
  match pySplitOnce '#' l with
  | none => (l, [])
  | some (a, b) => (a, b)

/-- Split at the first occurrence of two equality signs, as
`re.split` with pattern `==` and maxsplit 1 does; `none` when the
pattern does not occur (in which case the Python tuple unpacking of the
single returned piece raises). -/
def splitOnceEqGo (acc : List Char) : List Char → Option (List Char × List Char)
  | '=' :: '=' :: cs => some (acc.reverse, cs)
  | c :: cs => splitOnceEqGo (c :: acc) cs
  | [] => none

/-- See `splitOnceEqGo`. -/
def splitOnceEq (l : List Char) : Option (List Char × List Char) := splitOnceEqGo [] l

/-- Worker for `splitCommaSpace`. -/
def splitCommaSpaceGo (acc : List Char) : List Char → List (List Char)
  | [] => [acc.reverse]
  | ',' :: ' ' :: cs => acc.reverse :: splitCommaSpaceGo [] cs
  | c :: cs => splitCommaSpaceGo (c :: acc) cs

/-- `re.split` on the two character pattern comma-space, every
occurrence, as used on the remainder of a `via` comment. -/
def splitCommaSpace (l : List Char) : List (List Char) := splitCommaSpaceGo [] l

/-- The separator class of the canonicalization regex of
`packaging.utils.canonicalize_name`. -/
def isCanonSep (c : Char) : Bool := c = '-' || c = '_' || c = '.'

/-- Worker for `canonicalize_name`; `prevSep` records whether the
previous character belonged to a separator run already replaced. -/
def canonicalizeGo (prevSep : Bool) : List Char → List Char
  | [] => []
  | c :: cs =>
    if isCanonSep c then
      if prevSep then canonicalizeGo true cs
      else '-' :: canonicalizeGo true cs
    else Char.toLower c :: canonicalizeGo false cs

/-- Models `packaging.utils.canonicalize_name`: replace each maximal run
of `-`, `_`, `.` by a single `-`, then lowercase. -/
def canonicalize_name (l : List Char) : List Char := canonicalizeGo false l

/-! ### Version values

Models `packaging.version.Version` from the packaging library: the
PEP 440 grammar and the normalized rendering used by `str(version)`. -/

/-- The parsed components of a PEP 440 version. -/
structure PyVersion where
  epoch : Nat
  release : List Nat
  pre : Option (List Char × Nat)
  post : Option Nat
  dev : Option Nat
  localSeg : Option (List Char)
deriving DecidableEq

/-- Numeric value of a list of decimal digits. -/
def digitsToNat (l : List Char) : Nat := l.foldl (fun a c => 10 * a + (c.toNat - 48)) 0

/-- Greedily take leading decimal digits, returning their value (zero
when there are none) and the rest. -/
def takeNum (l : List Char) : Nat × List Char :=
  (digitsToNat (l.takeWhile Char.isDigit), l.dropWhile Char.isDigit)

/-- The separator characters allowed between version segments. -/
def isVerSep (c : Char) : Bool := c = '-' || c = '_' || c = '.'

/-- Trailing numeral of a pre, post or dev segment: an optional single
separator is consumed only when digits follow, as regex backtracking
would. -/
def takeSegNum (l : List Char) : Nat × List Char :=
  match l with
  | c :: d :: cs => if isVerSep c && d.isDigit then takeNum (d :: cs) else takeNum l
  | _ => takeNum l

/-- Match one of the given words (each paired with its normalized
spelling) as a literal at the head of the input; the word list is
ordered longest first so the greedy choice coincides with the regex
alternation of the packaging library on PEP 440 input. -/
def matchWords (ws : List (List Char × List Char)) (l : List Char) : Option (List Char × List Char) :=
  match ws with
  | [] => none
  | (w, norm) :: rest =>
    if w.isPrefixOf l then some (norm, l.drop w.length) else matchWords rest l

/-- Match a word list, also trying after one leading separator, as the
optional separator of the PEP 440 segment grammar allows. -/
def matchSegWord (ws : List (List Char × List Char)) (l : List Char) :
    Option (List Char × List Char) :=
  match matchWords ws l with
  | some r => some r
  | none =>
    match l with
    | c :: cs => if isVerSep c then matchWords ws cs else none
    | [] => none

/-- Pre-release spellings and their normalizations. -/
def preWords : List (List Char × List Char) :=
  [("preview".data, "rc".data), ("alpha".data, "a".data), ("beta".data, "b".data),
   ("pre".data, "rc".data), ("rc".data, "rc".data), ("a".data, "a".data),
   ("b".data, "b".data), ("c".data, "rc".data)]

/-- Post-release spellings (all normalize to `post`). -/
def postWords : List (List Char × List Char) :=
  [("post".data, "post".data), ("rev".data, "post".data), ("r".data, "post".data)]

/-- Dev-release spelling. -/
def devWords : List (List Char × List Char) := [("dev".data, "dev".data)]

/-- Additional dotted release components, consuming a dot followed by
digits as long as possible; `fuel` bounds the recursion by the input
length. -/
def takeRelMore (fuel : Nat) (l : List Char) : List Nat × List Char :=
  match fuel, l with
  | 0, l => ([], l)
  | fuel + 1, '.' :: c :: cs =>
    if c.isDigit then
      let (n, rest) := takeNum (c :: cs)
      let (ns, rest2) := takeRelMore fuel rest
      (n :: ns, rest2)
    else ([], '.' :: c :: cs)
  | _ + 1, l => ([], l)

/-- The pre segment: `none` in the first component when absent. -/
def takePre (l : List Char) : Option (List Char × Nat) × List Char :=
  match matchSegWord preWords l with
  | none => (none, l)
  | some (norm, rest) =>
    let (n, rest2) := takeSegNum rest
    (some (norm, n), rest2)

/-- The post segment, including the implicit form of a dash followed by
digits. -/
def takePost (l : List Char) : Option Nat × List Char :=
  match l with
  | '-' :: c :: cs =>
    if c.isDigit then
      let (n, rest) := takeNum (c :: cs)
      (some n, rest)
    else
      match matchSegWord postWords ('-' :: c :: cs) with
      | none => (none, '-' :: c :: cs)
      | some (_, rest) =>
        let (n, rest2) := takeSegNum rest
        (some n, rest2)
  | _ =>
    match matchSegWord postWords l with
    | none => (none, l)
    | some (_, rest) =>
      let (n, rest2) := takeSegNum rest
      (some n, rest2)

/-- The dev segment. -/
def takeDev (l : List Char) : Option Nat × List Char :=
  match matchSegWord devWords l with
  | none => (none, l)
  | some (_, rest) =>
    let (n, rest2) := takeSegNum rest
    (some n, rest2)

/-- A local version label: alphanumeric groups joined by separators,
normalized to dots; `none` when malformed.  `prevAlnum` records whether
the previous character was alphanumeric, so separators may neither lead,
trail, nor repeat. -/
def parseLocalGo (prevAlnum : Bool) : List Char → Option (List Char)
  | [] => if prevAlnum then some [] else none
  | c :: cs =>
    if c.isAlphanum then (parseLocalGo true cs).map (c :: ·)
    else if isVerSep c then
      if prevAlnum then (parseLocalGo false cs).map ('.' :: ·) else none
    else none

/-- Models the `packaging.version.Version` constructor: `some` holding
the parsed components, `none` when the constructor raises
`InvalidVersion`. -/
def parseVersion (input : List Char) : Option PyVersion :=
  let s0 := (pyStrip input).map Char.toLower
  let s1 := match s0 with
    | 'v' :: rest => rest
    | other => other
  let epochDigits := s1.takeWhile Char.isDigit
  let afterEpochDigits := s1.dropWhile Char.isDigit
  let (epoch, s2) :=
    match afterEpochDigits with
    | '!' :: rest => if epochDigits = [] then (0, s1) else (digitsToNat epochDigits, rest)
    | _ => (0, s1)
  match s2.takeWhile Char.isDigit with
  | [] => none
  | relDigits =>
    let rest0 := s2.dropWhile Char.isDigit
    let (relMore, rest1) := takeRelMore rest0.length rest0
    let (pre, rest2) := takePre rest1
    let (post, rest3) := takePost rest2
    let (dev, rest4) := takeDev rest3
    match rest4 with
    | [] => some ⟨epoch, digitsToNat relDigits :: relMore, pre, post, dev, none⟩
    | '+' :: loc =>
      match parseLocalGo false loc with
      | some norm => some ⟨epoch, digitsToNat relDigits :: relMore, pre, post, dev, some norm⟩
      | none => none
    | _ => none

/-- Worker for `natToDigits`. -/
def natToDigitsGo (fuel n : Nat) : List Char :=
  match fuel with
  | 0 => []
  | fuel + 1 =>
    if n < 10 then [Char.ofNat (48 + n)]
    else natToDigitsGo fuel (n / 10) ++ [Char.ofNat (48 + n % 10)]

/-- Decimal rendering of a natural number. -/
def natToDigits (n : Nat) : List Char := natToDigitsGo (n + 1) n

/-- Join pieces with dots. -/
def joinDot : List (List Char) → List Char
  | [] => []
  | [x] => x
  | x :: xs => x ++ '.' :: joinDot xs

/-- Models `str(version)`: the normalized PEP 440 rendering. -/
def strVersion (v : PyVersion) : List Char :=
  (if v.epoch = 0 then [] else natToDigits v.epoch ++ ['!'])
    ++ joinDot (v.release.map natToDigits)
    ++ (match v.pre with
        | none => []
        | some (w, n) => w ++ natToDigits n)
    ++ (match v.post with
        | none => []
        | some n => ".post".data ++ natToDigits n)
    ++ (match v.dev with
        | none => []
        | some n => ".dev".data ++ natToDigits n)
    ++ (match v.localSeg with
        | none => []
        | some l => '+' :: l)

/-! ### Line assembly and candidate parsing -/

/-- Worker for `iter_candidate_lines`; `curr` is the accumulator string
of the Python generator. -/
def iterLinesGo (curr : List Char) : List (List Char) → List (List Char)
  | [] => []
  | l :: ls =>
    if pyStrip l = [] then iterLinesGo curr ls
    else if (pyStrip l).getLast? = some '\\' then
      iterLinesGo (curr ++ (pyStrip l).dropLast) ls
    else if curr ++ pyStrip l ≠ [] ∧ (curr ++ pyStrip l).head? ≠ some '#' then
      (curr ++ pyStrip l) :: iterLinesGo [] ls
    else iterLinesGo [] ls

/-- Models `_iter_candidate_lines`: join backslash continuations, skip
blank lines, drop assembled lines that are empty or start with a hash
mark. -/
def iter_candidate_lines (ls : List (List Char)) : List (List Char) := iterLinesGo [] ls

/-- Models `_iter_parents`: split the remainder of a `via` comment on
comma-space; a token with the requirements-file marker as a leading
piece contributes the empty sentinel, any other token contributes its
canonicalized spelling. -/
def iter_parents (comment : List Char) : List (List Char) :=
  (splitCommaSpace comment).map fun parent =>
    if ("-r".data).isPrefixOf parent then [] else canonicalize_name parent

/-- Models the Python `set` constructor on parent names: duplicates
collapse; the iteration order of a Python set is unspecified, and no
theorem below depends on the order of this list beyond membership. -/
def setDedup : List (List Char) → List (List Char)
  | [] => []
  | x :: xs => x :: (setDedup xs).filter (fun y => y ≠ x)

/-- One integrity hash, an algorithm and digest pair. -/
structure Hash where
  alg : List Char
  val : List Char
deriving DecidableEq

/-- Models `Hash.__str__`. -/
def Hash.toStr (h : Hash) : List Char := h.alg ++ ':' :: h.val

/-- One resolved package occurrence, as in the `Candidate` dataclass. -/
structure Candidate where
  name : List Char
  version : PyVersion
  hashes : List Hash
  parents : List (List Char)
deriving DecidableEq

/-- The ways one logical line can make `_iter_candidates` raise.  The
first four are the `MalformedCandidateLine` conditions of the design
(assertion on a line with no name and version token, a hash token
without a colon, a token without a double equals sign, an invalid
version string); `unboundParents` models the `UnboundLocalError` raised
when a line without a `via` comment is reached before any `via` comment
has ever assigned the `parents` variable. -/
inductive CandErr where
  | noPackage : CandErr
  | badHashToken : CandErr
  | badNameVersionToken : CandErr
  | badVersionString : CandErr
  | unboundParents : CandErr
deriving DecidableEq

/-- Parse one `--hash=` token: drop through the first equals sign, then
split the remainder at its first colon. -/
def parseHashToken (part : List Char) : Except CandErr Hash :=
  match pySplitOnce '=' part with
  | none => .error .badHashToken
  | some (_, rest) =>
    match pySplitOnce ':' rest with
    | none => .error .badHashToken
    | some (alg, val) => .ok ⟨alg, val⟩

/-- The `part.startswith` test distinguishing hash tokens from the name
and version token. -/
def isHashTok (t : List Char) : Bool := ("--hash=".data).isPrefixOf t

/-- The token loop of `_iter_candidates`: `hs` accumulates hashes in
order, `nv` holds the last name and version token parsed so far (the
Python `parsed` flag is its presence). -/
def parseLoop : List (List Char) → List Hash → Option (List Char × PyVersion) →
    Except CandErr (List Hash × Option (List Char × PyVersion))
  | [], hs, nv => .ok (hs, nv)
  | part :: rest, hs, nv =>
    if isHashTok part then
      match parseHashToken part with
      | .error e => .error e
      | .ok h => parseLoop rest (hs ++ [h]) nv
    else
      match splitOnceEq part with
      | none => .error .badNameVersionToken
      | some (n, vs) =>
        match parseVersion vs with
        | none => .error .badVersionString
        | some v => parseLoop rest hs (some (n, v))

/-- The `comment[3:].split` expression: everything before a second hash
mark inside the comment. -/
def beforeInnerHash (l : List Char) : List Char :=
  match pySplitOnce '#' l with
  | none => l
  | some (a, _) => a

/-- One iteration of the loop body of `_iter_candidates` on a logical
line.  `pv` is the current value of the `parents` local variable
(`none` while it is still unbound); the returned value pairs the parsed
candidate with the value of `parents` after the iteration, since the
variable persists to the next iteration. -/
def parse_candidate_line (pv : Option (List (List Char))) (raw : List Char) :
    Except CandErr (Candidate × Option (List (List Char))) :=
  match parseLoop (pySplitWs (pyPartitionHash raw).1) [] none with
  | .error e => .error e
  | .ok (_, none) => .error .noPackage
  | .ok (hashes, some nv) =>
    match (if ("via".data).isPrefixOf (pyLStrip (pyPartitionHash raw).2) then
        some (setDedup (iter_parents (pyStrip (beforeInnerHash
          ((pyLStrip (pyPartitionHash raw).2).drop 3)))))
      else pv) with
    | none => .error .unboundParents
    | some parents => .ok (⟨nv.1, nv.2, hashes, parents⟩, some parents)

/-- Worker for `iter_candidates`, threading the `parents` variable from
line to line. -/
def iterCandidatesGo (pv : Option (List (List Char))) :
    List (List Char) → Except CandErr (List Candidate)
  | [] => .ok []
  | l :: ls =>
    match parse_candidate_line pv l with
    | .error e => .error e
    | .ok (c, pv2) =>
      match iterCandidatesGo pv2 ls with
      | .error e => .error e
      | .ok cs => .ok (c :: cs)

/-- Models `list(_iter_candidates(f))` on the physical lines of the
resolver output: assemble logical lines, then parse each in turn. -/
def iter_candidates (physical : List (List Char)) : Except CandErr (List Candidate) :=
  iterCandidatesGo none (iter_candidate_lines physical)

/-! ### The lock document -/

/-- The index URL constant `PYPI`. -/
def PYPI : List Char := "https://pypi.org/simple".data

/-- The distribution identity recorded under the `python` key of a
dependency entry. -/
structure Dist where
  name : List Char
  version : List Char
  source : List Char
deriving DecidableEq

/-- One value of the `dependencies` mapping: an optional `python`
distribution identity and the nested `dependencies` mapping, whose
values are all `None` so only its key list is modelled. -/
structure DepEntry where
  python : Option Dist
  deps : List (List Char)
deriving DecidableEq

/-- The lock document.  Mappings are association lists with the
insertion-order semantics of Python dicts; `sources` is the constant
sources section. -/
structure Lock where
  sources : List (List Char × (List Char × List Char))
  dependencies : List (List Char × DepEntry)
  validations : List (List Char × List (List Char))
deriving DecidableEq

/-- Python dict lookup. -/
def dictGet {α : Type} (k : List Char) : List (List Char × α) → Option α
  | [] => none
  | (k2, v) :: rest => if k2 = k then some v else dictGet k rest

/-- Python dict assignment: overwrite in place when the key is present,
append otherwise. -/
def dictSet {α : Type} (k : List Char) (v : α) : List (List Char × α) → List (List Char × α)
  | [] => [(k, v)]
  | (k2, v2) :: rest => if k2 = k then (k2, v) :: rest else (k2, v2) :: dictSet k v rest

/-- Python in-place mutation of the value stored under a key; the
identity when the key is absent. -/
def dictModify {α : Type} (k : List Char) (f : α → α) : List (List Char × α) →
    List (List Char × α)
  | [] => []
  | (k2, v) :: rest => if k2 = k then (k2, f v) :: rest else (k2, v) :: dictModify k f rest

/-- The canonical graph key of a candidate. -/
def mkKey (c : Candidate) : List Char := canonicalize_name c.name

/-- The distribution identity a candidate contributes in the first pass
of `_build_lock`. -/
def distOf (c : Candidate) : Dist := ⟨c.name, strVersion c.version, "pypi".data⟩

/-- First pass of `_build_lock` for one candidate: insert or overwrite
the dependency entry and the validations entry under the canonical
key. -/
def pass1Step (lk : Lock) (c : Candidate) : Lock :=
  { lk with
    dependencies := dictSet (mkKey c) ⟨some (distOf c), []⟩ lk.dependencies,
    validations := dictSet (mkKey c) (c.hashes.map Hash.toStr) lk.validations }

/-- Setting the `None` edge marker under a key of a nested
`dependencies` dict: a present key keeps its position, an absent key is
appended. -/
def depInsert (k : List Char) (l : List (List Char)) : List (List Char) :=
  if k ∈ l then l else l ++ [k]

/-- Second pass of `_build_lock` for one parent of one candidate:
synthesize a bare entry when the parent key is absent, then record the
edge from the parent to the candidate. -/
def pass2Parent (key : List Char) (d : List (List Char × DepEntry)) (p : List Char) :
    List (List Char × DepEntry) :=
  dictModify p (fun e => { e with deps := depInsert key e.deps })
    (if (dictGet p d).isSome then d else dictSet p ⟨none, []⟩ d)

/-- Second pass of `_build_lock` for one candidate. -/
def pass2Step (lk : Lock) (c : Candidate) : Lock :=
  { lk with dependencies := c.parents.foldl (pass2Parent (mkKey c)) lk.dependencies }

/-- The constant `sources` section. -/
def lockSources : List (List Char × (List Char × List Char)) :=
  [("pypi".data, ("simple".data, PYPI))]

/-- Models `_build_lock`: the identity pass over all candidates followed
by the edge pass over all candidates. -/
def build_lock (cs : List Candidate) : Lock :=
  cs.foldl pass2Step (cs.foldl pass1Step ⟨lockSources, [], []⟩)

/-! ### Serialization

`_write_lock` dumps the document with `sort_keys=True`, so the
serialized text is determined by the document with every mapping put
into sorted key order (keys compare lexicographically by code point,
the JSON order on strings).  `serializeLock` is that sorted view. -/

/-- Keys in sorted order, using the lexicographic order on `List Char`. -/
def sortKeys (l : List (List Char)) : List (List Char) :=
  List.insertionSort (· ≤ ·) l

/-- A mapping in sorted key order: the sorted key list, each paired with
the value the dict stores under it. -/
def sortDict {α : Type} (l : List (List Char × α)) : List (List Char × Option α) :=
  (sortKeys (l.map Prod.fst)).map fun k => (k, dictGet k l)

/-- A dependency entry with its nested edge mapping in sorted key
order. -/
def entryView (e : DepEntry) : Option Dist × List (List Char) :=
  (e.python, sortKeys e.deps)

/-- The serialized form of a lock document: every mapping in sorted key
order, nested mappings included. -/
def serializeLock (lk : Lock) :
    List (List Char × (List Char × List Char)) ×
      List (List Char × Option (Option Dist × List (List Char))) ×
      List (List Char × Option (List (List Char))) :=
  (sortDict lk.sources |>.filterMap fun p => p.2.map (p.1, ·),
   sortDict (lk.dependencies.map fun p => (p.1, entryView p.2)),
   sortDict lk.validations)

/-! ### Helper lemmas and claim theorems -/

/-- `parseHashToken` fails only with the malformed hash error. -/
theorem parseHashToken_error_eq (t : List Char) (e : CandErr)
    (h : parseHashToken t = .error e) : e = .badHashToken := by
  unfold parseHashToken at h
  rcases h1 : pySplitOnce '=' t with _ | ⟨a, rest⟩ <;> rw [h1] at h <;> dsimp only at h
  · cases h; rfl
  · rcases h2 : pySplitOnce ':' rest with _ | ⟨al, v⟩ <;> rw [h2] at h <;> dsimp only at h
    · cases h; rfl
    · cases h

/-- On a token list of hash tokens only, the loop either completes with
the name and version slot still empty or fails on a malformed hash
token. -/
theorem parseLoop_all_hash (toks : List (List Char)) :
    ∀ hs : List Hash, (∀ t ∈ toks, isHashTok t = true) →
      (∃ hs2, parseLoop toks hs none = .ok (hs2, none)) ∨
        parseLoop toks hs none = .error .badHashToken := by
  induction toks with
  | nil => exact fun hs _ => .inl ⟨hs, rfl⟩
  | cons t rest ih =>
    intro hs h
    have ht := h t (List.mem_cons_self t rest)
    rw [parseLoop, if_pos ht]
    rcases hp : parseHashToken t with e | h2
    · rw [parseHashToken_error_eq t e hp]
      exact .inr rfl
    · exact ih (hs ++ [h2]) fun t2 ht2 => h t2 (List.mem_cons_of_mem t ht2)

/-- C2: a logical line whose whitespace-separated code-part tokens
contain no name and version token (every token is a hash token) makes
the candidate parser fail the whole line with one of the malformed-line
errors — the assertion error for a line with no package, or the
malformed hash token error — never return a candidate. -/
theorem claim2_no_token_fails (raw : List Char) (pv : Option (List (List Char)))
    (h : ∀ t ∈ pySplitWs (pyPartitionHash raw).1, isHashTok t = true) :
    ∃ e, parse_candidate_line pv raw = .error e ∧
      (e = .noPackage ∨ e = .badHashToken) := by
  unfold parse_candidate_line
  rcases parseLoop_all_hash (pySplitWs (pyPartitionHash raw).1) [] h with ⟨hs2, hok⟩ | herr
  · rw [hok]
    exact ⟨.noPackage, rfl, .inl rfl⟩
  · rw [herr]
    exact ⟨.badHashToken, rfl, .inr rfl⟩

/-- Witness for C2 at a concrete line of two hash tokens. -/
theorem claim2_witness :
    ∃ e, parse_candidate_line none "--hash=s:d --hash=t:e".data = .error e ∧
      (e = .noPackage ∨ e = .badHashToken) :=
  claim2_no_token_fails "--hash=s:d --hash=t:e".data none (by decide)

/-- Every line emitted by the assembler is nonempty and does not start
with a hash mark. -/
theorem iterLinesGo_mem : ∀ (ls : List (List Char)) (curr out : List Char),
    out ∈ iterLinesGo curr ls → out ≠ [] ∧ out.head? ≠ some '#' := by
  intro ls
  induction ls with
  | nil =>
    intro curr out h
    simp [iterLinesGo] at h
  | cons l ls ih =>
    intro curr out h
    rw [iterLinesGo] at h
    split at h
    · exact ih _ _ h
    · split at h
      · exact ih _ _ h
      · split at h
        · next hcond =>
            rcases List.mem_cons.mp h with rfl | h2
            · exact hcond
            · exact ih _ _ h2
        · exact ih _ _ h

/-- C7: an assembled logical line that is empty or begins with the
comment marker is never emitted by the line assembler, including lines
assembled from several continued physical lines, and an accumulator
left unterminated at end of stream is discarded rather than emitted. -/
theorem claim7_assembler_discards (ls : List (List Char)) (out curr : List Char)
    (h : out ∈ iter_candidate_lines ls) :
    (out ≠ [] ∧ out.head? ≠ some '#') ∧ iterLinesGo curr [] = [] :=
  ⟨iterLinesGo_mem ls [] out h, rfl⟩

/-- Witness for C7 on a two-piece continuation. -/
theorem claim7_witness :
    (("a b".data ≠ [] ∧ "a b".data.head? ≠ some '#') ∧ iterLinesGo "xy".data [] = []) :=
  claim7_assembler_discards ["a \\".data, "b".data] "a b".data "xy".data (by decide)

/-- C9: a logical line whose comment part after the hash mark trims to
the bare marker `via` produces a candidate whose parent set is the
singleton of the empty-string sentinel, not the empty set. -/
theorem claim9_bare_via (raw : List Char) (pv : Option (List (List Char)))
    (hashes : List Hash) (nm : List Char) (ver : PyVersion)
    (hcomment : pyLStrip (pyPartitionHash raw).2 = "via".data)
    (hloop : parseLoop (pySplitWs (pyPartitionHash raw).1) [] none =
      .ok (hashes, some (nm, ver))) :
    parse_candidate_line pv raw = .ok (⟨nm, ver, hashes, [[]]⟩, some [[]]) := by
  unfold parse_candidate_line
  rw [hloop, hcomment]
  rfl

/-- Witness for C9: the bare `via` line builds a candidate recorded as a
dependency of the pseudo-package keyed by the empty string. -/
theorem claim9_witness :
    parse_candidate_line none "a==1.0 --hash=s:d # via".data =
      .ok (⟨"a".data, ⟨0, [1, 0], none, none, none, none⟩,
            [⟨"s".data, "d".data⟩], [[]]⟩, some [[]]) ∧
    dictGet [] (build_lock [⟨"a".data, ⟨0, [1, 0], none, none, none, none⟩,
        [⟨"s".data, "d".data⟩], [[]]⟩]).dependencies =
      some ⟨none, ["a".data]⟩ :=
  ⟨claim9_bare_via "a==1.0 --hash=s:d # via".data none
      [⟨"s".data, "d".data⟩] "a".data ⟨0, [1, 0], none, none, none, none⟩
      (by decide) rfl, rfl⟩

/-- C1 fails on the code: on the two-line input of the claim the second
line carries no `via` comment, so the `parents` local variable keeps the
value assigned while parsing the first line.  The parsed candidate for
`b` therefore has parent set containing `b` itself, the built document
records a self edge under `b` (its nested dependencies mapping holds
both `a` and `b`, not `a` alone), and a no-`via` line with no preceding
`via` line fails with the unbound-variable error instead of defaulting
to an empty parent set. -/
theorem claim1_parents_leak :
    iter_candidates ["a==1.0 # via b".data, "b==2.0".data] =
      .ok [⟨"a".data, ⟨0, [1, 0], none, none, none, none⟩, [], ["b".data]⟩,
           ⟨"b".data, ⟨0, [2, 0], none, none, none, none⟩, [], ["b".data]⟩] ∧
    dictGet "b".data (build_lock
        [⟨"a".data, ⟨0, [1, 0], none, none, none, none⟩, [], ["b".data]⟩,
         ⟨"b".data, ⟨0, [2, 0], none, none, none, none⟩, [], ["b".data]⟩]).dependencies =
      some ⟨some ⟨"b".data, "2.0".data, "pypi".data⟩, ["a".data, "b".data]⟩ ∧
    iter_candidates ["b==2.0".data] = .error .unboundParents :=
  ⟨rfl, rfl, rfl⟩

/-- Map a fallible function over a list, succeeding only when every
element succeeds; used to state well-formedness of token lists. -/
def mapOpt {α β : Type} (f : α → Option β) : List α → Option (List β)
  | [] => some []
  | a :: l =>
    match f a, mapOpt f l with
    | some b, some bs => some (b :: bs)
    | _, _ => none

/-- The parse of one name and version token: the split at the first
double equals sign followed by the version parse. -/
def parseNVTok (t : List Char) : Option (List Char × PyVersion) :=
  match splitOnceEq t with
  | none => none
  | some (n, vs) =>
    match parseVersion vs with
    | none => none
    | some v => some (n, v)

/-- When every hash token and every name and version token of the list
parses, the token loop succeeds, appending all hashes in order and
keeping the last parsed name and version. -/
theorem parseLoop_ok (toks : List (List Char)) :
    ∀ (hs hl : List Hash) (nv : Option (List Char × PyVersion))
      (nvl : List (List Char × PyVersion)),
      mapOpt (fun t => (parseHashToken t).toOption) (toks.filter isHashTok) = some hl →
      mapOpt parseNVTok (toks.filter fun t => !isHashTok t) = some nvl →
      parseLoop toks hs nv = .ok (hs ++ hl, nvl.foldl (fun _ x => some x) nv) := by
  induction toks with
  | nil =>
    intro hs hl nv nvl hh hn
    cases hh
    cases hn
    simp [parseLoop]
  | cons t rest ih =>
    intro hs hl nv nvl hh hn
    by_cases ht : isHashTok t = true
    · rw [List.filter_cons_of_pos ht] at hh
      rw [List.filter_cons_of_neg (by simp [ht])] at hn
      rw [mapOpt] at hh
      rcases h1 : (parseHashToken t).toOption with _ | h0 <;> rw [h1] at hh
      · cases hh
      · rcases h2 : mapOpt (fun t => (parseHashToken t).toOption) (rest.filter isHashTok) with
          _ | hl2 <;> rw [h2] at hh
        · cases hh
        · cases hh
          have hok : parseHashToken t = .ok h0 := by
            rcases h3 : parseHashToken t with e | h4 <;> rw [h3] at h1
            · cases h1
            · cases h1; rfl
          rw [parseLoop, if_pos ht, hok]
          dsimp only
          rw [ih (hs ++ [h0]) hl2 nv nvl h2 hn]
          simp
    · rw [List.filter_cons_of_neg ht] at hh
      rw [List.filter_cons_of_pos (by simp [ht])] at hn
      rw [mapOpt] at hn
      rcases h1 : parseNVTok t with _ | x <;> rw [h1] at hn
      · cases hn
      · rcases h2 : mapOpt parseNVTok (rest.filter fun t => !isHashTok t) with _ | nvl2 <;>
          rw [h2] at hn
        · cases hn
        · cases hn
          unfold parseNVTok at h1
          rcases h3 : splitOnceEq t with _ | ⟨n, vs⟩ <;> rw [h3] at h1 <;> dsimp only at h1
          · cases h1
          · rcases h4 : parseVersion vs with _ | v <;> rw [h4] at h1 <;> dsimp only at h1
            · cases h1
            · cases h1
              rw [parseLoop, if_neg (by simp [ht]), h3]
              dsimp only
              rw [h4]
              exact ih hs hl (some (n, v)) nvl2 hh h2

/-- C10: a logical line whose code part holds more than one well-formed
name and version token does not fail: the parser returns a single
candidate whose name and version come from the last such token, the
earlier ones silently discarded, while every hash token on the line is
still collected in order.  The provenance state must be bound (the
`parents` variable set by this or an earlier line), since an unbound
state fails for the unrelated reason recorded at C1. -/
theorem claim10_last_token_wins (raw : List Char) (ps0 : List (List Char))
    (hl : List Hash) (nvl : List (List Char × PyVersion)) (nm : List Char) (ver : PyVersion)
    (hh : mapOpt (fun t => (parseHashToken t).toOption)
      ((pySplitWs (pyPartitionHash raw).1).filter isHashTok) = some hl)
    (hn : mapOpt parseNVTok
      ((pySplitWs (pyPartitionHash raw).1).filter fun t => !isHashTok t) =
      some (nvl ++ [(nm, ver)]))
    (_hlen : nvl ≠ []) :
    ∃ parents, parse_candidate_line (some ps0) raw =
      .ok (⟨nm, ver, hl, parents⟩, some parents) := by
  have h := parseLoop_ok (pySplitWs (pyPartitionHash raw).1) [] hl none (nvl ++ [(nm, ver)]) hh hn
  rw [List.foldl_append] at h
  unfold parse_candidate_line
  rw [h]
  dsimp only
  by_cases hv : ("via".data).isPrefixOf (pyLStrip (pyPartitionHash raw).2) = true
  · rw [if_pos hv]
    exact ⟨_, rfl⟩
  · rw [if_neg hv]
    exact ⟨ps0, rfl⟩

/-- Witness for C10: two name and version tokens on one line, the later
token winning. -/
theorem claim10_witness :
    ∃ parents, parse_candidate_line (some []) "a==1.0 b==2.0 --hash=s:d".data =
      .ok (⟨"b".data, ⟨0, [2, 0], none, none, none, none⟩,
            [⟨"s".data, "d".data⟩], parents⟩, some parents) :=
  claim10_last_token_wins "a==1.0 b==2.0 --hash=s:d".data [] [⟨"s".data, "d".data⟩]
    [("a".data, ⟨0, [1, 0], none, none, none, none⟩)] "b".data
    ⟨0, [2, 0], none, none, none, none⟩ rfl rfl (by decide)
/-! ### Dictionary lemmas -/

theorem dictGet_nil {α : Type} (k : List Char) : dictGet (α := α) k [] = none := rfl

theorem dictGet_cons {α : Type} (k k2 : List Char) (v : α) (rest : List (List Char × α)) :
    dictGet k ((k2, v) :: rest) = if k2 = k then some v else dictGet k rest := rfl

theorem dictSet_nil {α : Type} (k : List Char) (v : α) : dictSet k v [] = [(k, v)] := rfl

theorem dictSet_cons {α : Type} (k k2 : List Char) (v v2 : α) (rest : List (List Char × α)) :
    dictSet k v ((k2, v2) :: rest) =
      if k2 = k then (k2, v) :: rest else (k2, v2) :: dictSet k v rest := rfl

theorem dictModify_nil {α : Type} (k : List Char) (f : α → α) : dictModify k f [] = [] := rfl

theorem dictModify_cons {α : Type} (k k2 : List Char) (f : α → α) (v : α)
    (rest : List (List Char × α)) :
    dictModify k f ((k2, v) :: rest) =
      if k2 = k then (k2, f v) :: rest else (k2, v) :: dictModify k f rest := rfl

theorem dictGet_dictSet_self {α : Type} (k : List Char) (v : α) (l : List (List Char × α)) :
    dictGet k (dictSet k v l) = some v := by
  induction l with
  | nil => rw [dictSet_nil, dictGet_cons, if_pos rfl]
  | cons p rest ih =>
    obtain ⟨k2, v2⟩ := p
    by_cases h : k2 = k
    · rw [dictSet_cons, if_pos h, dictGet_cons, if_pos h]
    · rw [dictSet_cons, if_neg h, dictGet_cons, if_neg h]
      exact ih

theorem dictGet_dictSet_ne {α : Type} (k q : List Char) (v : α) (l : List (List Char × α))
    (h : q ≠ k) : dictGet q (dictSet k v l) = dictGet q l := by
  induction l with
  | nil =>
    rw [dictSet_nil, dictGet_cons, if_neg fun h2 => h h2.symm, dictGet_nil]
  | cons p rest ih =>
    obtain ⟨k2, v2⟩ := p
    by_cases h2 : k2 = k
    · have hne : ¬k2 = q := fun h3 => h (h3 ▸ h2)
      rw [dictSet_cons, if_pos h2, dictGet_cons, if_neg hne, dictGet_cons, if_neg hne]
    · rw [dictSet_cons, if_neg h2, dictGet_cons, dictGet_cons]
      by_cases h3 : k2 = q
      · rw [if_pos h3, if_pos h3]
      · rw [if_neg h3, if_neg h3]
        exact ih

theorem dictGet_dictModify_self {α : Type} (k : List Char) (f : α → α)
    (l : List (List Char × α)) : dictGet k (dictModify k f l) = (dictGet k l).map f := by
  induction l with
  | nil => rw [dictModify_nil, dictGet_nil, Option.map_none']
  | cons p rest ih =>
    obtain ⟨k2, v2⟩ := p
    by_cases h : k2 = k
    · rw [dictModify_cons, if_pos h, dictGet_cons, if_pos h, dictGet_cons, if_pos h,
        Option.map_some']
    · rw [dictModify_cons, if_neg h, dictGet_cons, if_neg h, dictGet_cons, if_neg h]
      exact ih

theorem dictGet_dictModify_ne {α : Type} (k q : List Char) (f : α → α)
    (l : List (List Char × α)) (h : q ≠ k) :
    dictGet q (dictModify k f l) = dictGet q l := by
  induction l with
  | nil => rw [dictModify_nil]
  | cons p rest ih =>
    obtain ⟨k2, v2⟩ := p
    by_cases h2 : k2 = k
    · have hne : ¬k2 = q := fun h3 => h (h3 ▸ h2)
      rw [dictModify_cons, if_pos h2, dictGet_cons, if_neg hne, dictGet_cons, if_neg hne]
    · rw [dictModify_cons, if_neg h2, dictGet_cons, dictGet_cons]
      by_cases h3 : k2 = q
      · rw [if_pos h3, if_pos h3]
      · rw [if_neg h3, if_neg h3]
        exact ih

theorem isSome_dictGet_iff_mem {α : Type} (q : List Char) (l : List (List Char × α)) :
    (dictGet q l).isSome = true ↔ q ∈ l.map Prod.fst := by
  induction l with
  | nil => simp [dictGet_nil]
  | cons p rest ih =>
    obtain ⟨k2, v2⟩ := p
    by_cases h : k2 = q
    · subst h
      rw [dictGet_cons, if_pos rfl]
      constructor
      · intro _
        exact List.mem_cons.mpr (Or.inl rfl)
      · intro _
        rfl
    · rw [dictGet_cons, if_neg h, List.map_cons, List.mem_cons, ih]
      have hne : ¬q = k2 := fun h2 => h h2.symm
      tauto

theorem mem_keys_dictSet {α : Type} (k q : List Char) (v : α) (l : List (List Char × α)) :
    q ∈ (dictSet k v l).map Prod.fst ↔ q ∈ l.map Prod.fst ∨ q = k := by
  induction l with
  | nil =>
    rw [dictSet_nil, List.map_cons]
    simp
  | cons p rest ih =>
    obtain ⟨k2, v2⟩ := p
    by_cases h : k2 = k
    · subst h
      rw [dictSet_cons, if_pos rfl]
      constructor
      · intro hm
        exact Or.inl hm
      · intro hm
        rcases hm with hm | hm
        · exact hm
        · exact List.mem_cons.mpr (Or.inl hm)
    · rw [dictSet_cons, if_neg h, List.map_cons, List.map_cons, List.mem_cons, List.mem_cons, ih]
      tauto

theorem keys_dictModify {α : Type} (k : List Char) (f : α → α) (l : List (List Char × α)) :
    (dictModify k f l).map Prod.fst = l.map Prod.fst := by
  induction l with
  | nil => rfl
  | cons p rest ih =>
    obtain ⟨k2, v2⟩ := p
    by_cases h : k2 = k
    · rw [dictModify_cons, if_pos h]
      rfl
    · rw [dictModify_cons, if_neg h, List.map_cons, List.map_cons, ih]

theorem keysNodup_dictSet {α : Type} (k : List Char) (v : α) (l : List (List Char × α))
    (h : (l.map Prod.fst).Nodup) : ((dictSet k v l).map Prod.fst).Nodup := by
  induction l with
  | nil =>
    rw [dictSet_nil, List.map_cons]
    simp
  | cons p rest ih =>
    obtain ⟨k2, v2⟩ := p
    rw [List.map_cons, List.nodup_cons] at h
    by_cases h2 : k2 = k
    · subst h2
      rw [dictSet_cons, if_pos rfl, List.map_cons, List.nodup_cons]
      exact h
    · rw [dictSet_cons, if_neg h2, List.map_cons, List.nodup_cons]
      refine ⟨fun hmem => ?_, ih h.2⟩
      rcases (mem_keys_dictSet k k2 v rest).mp hmem with h3 | h3
      · exact h.1 h3
      · exact h2 h3

/-- The last element of a cons as an `Option.or`. -/
theorem getLast?_cons_or {α : Type u} (a : α) (l : List α) :
    (a :: l).getLast? = l.getLast?.or (some a) := by
  rw [← List.singleton_append, List.getLast?_append]
  rfl

/-- `Option.map` distributes over `Option.or`. -/
theorem option_map_or {α β : Type u} (f : α → β) (x y : Option α) :
    (x.or y).map f = (x.map f).or (y.map f) := by
  cases x <;> rfl

/-! ### First-pass lemmas -/

theorem pass1_sources (cs : List Candidate) (lk : Lock) :
    (cs.foldl pass1Step lk).sources = lk.sources := by
  induction cs generalizing lk with
  | nil => rfl
  | cons c cs ih => rw [List.foldl_cons, ih]; rfl

theorem pass2_sources (cs : List Candidate) (lk : Lock) :
    (cs.foldl pass2Step lk).sources = lk.sources := by
  induction cs generalizing lk with
  | nil => rfl
  | cons c cs ih => rw [List.foldl_cons, ih]; rfl

theorem pass2_validations (cs : List Candidate) (lk : Lock) :
    (cs.foldl pass2Step lk).validations = lk.validations := by
  induction cs generalizing lk with
  | nil => rfl
  | cons c cs ih => rw [List.foldl_cons, ih]; rfl

theorem pass1_validations_get (cs : List Candidate) (lk : Lock) (k : List Char) :
    dictGet k (cs.foldl pass1Step lk).validations =
      (((cs.filter fun c => mkKey c == k).getLast?.map
        fun c => c.hashes.map Hash.toStr).or (dictGet k lk.validations)) := by
  induction cs generalizing lk with
  | nil => simp
  | cons c cs ih =>
    rw [List.foldl_cons, ih]
    by_cases hc : mkKey c = k
    · rw [List.filter_cons_of_pos (by simp [hc])]
      have hg : dictGet k (pass1Step lk c).validations = some (c.hashes.map Hash.toStr) := by
        show dictGet k (dictSet (mkKey c) (c.hashes.map Hash.toStr) lk.validations) = _
        rw [← hc, dictGet_dictSet_self]
      rw [hg, getLast?_cons_or, option_map_or, Option.or_assoc, Option.map_some', Option.or_some]
    · rw [List.filter_cons_of_neg (by simp [hc])]
      have hg : dictGet k (pass1Step lk c).validations = dictGet k lk.validations := by
        show dictGet k (dictSet (mkKey c) (c.hashes.map Hash.toStr) lk.validations) = _
        exact dictGet_dictSet_ne (mkKey c) k _ _ fun h => hc h.symm
      rw [hg]

theorem pass1_dependencies_get (cs : List Candidate) (lk : Lock) (k : List Char) :
    dictGet k (cs.foldl pass1Step lk).dependencies =
      (((cs.filter fun c => mkKey c == k).getLast?.map
        fun c => (⟨some (distOf c), []⟩ : DepEntry)).or (dictGet k lk.dependencies)) := by
  induction cs generalizing lk with
  | nil => simp
  | cons c cs ih =>
    rw [List.foldl_cons, ih]
    by_cases hc : mkKey c = k
    · rw [List.filter_cons_of_pos (by simp [hc])]
      have hg : dictGet k (pass1Step lk c).dependencies =
          some (⟨some (distOf c), []⟩ : DepEntry) := by
        show dictGet k (dictSet (mkKey c) ⟨some (distOf c), []⟩ lk.dependencies) = _
        rw [← hc, dictGet_dictSet_self]
      rw [hg, getLast?_cons_or, option_map_or, Option.or_assoc, Option.map_some', Option.or_some]
    · rw [List.filter_cons_of_neg (by simp [hc])]
      have hg : dictGet k (pass1Step lk c).dependencies = dictGet k lk.dependencies := by
        show dictGet k (dictSet (mkKey c) ⟨some (distOf c), []⟩ lk.dependencies) = _
        exact dictGet_dictSet_ne (mkKey c) k _ _ fun h => hc h.symm
      rw [hg]

/-- C5: for every candidate that is the last of its canonical name in
the list, the validations entry under that canonical name is exactly
the list of its hashes rendered as algorithm-colon-digest strings, in
the original token order. -/
theorem claim5_hash_fidelity (cs pre post : List Candidate) (c : Candidate)
    (hsplit : cs = pre ++ c :: post) (hlast : ∀ c2 ∈ post, mkKey c2 ≠ mkKey c) :
    dictGet (mkKey c) (build_lock cs).validations = some (c.hashes.map Hash.toStr) := by
  unfold build_lock
  rw [pass2_validations, pass1_validations_get, hsplit, List.filter_append]
  rw [List.filter_cons_of_pos (by simp)]
  have hpost : List.filter (fun c2 => mkKey c2 == mkKey c) post = [] := by
    rw [List.filter_eq_nil_iff]
    intro c2 h2
    simp [hlast c2 h2]
  rw [hpost, List.getLast?_concat]
  rfl

/-- Witness for C5: two candidates spell the same canonical name, the
later one supplying the recorded hash list. -/
theorem claim5_witness :
    dictGet (mkKey ⟨"a".data, ⟨0, [2, 0], none, none, none, none⟩,
        [⟨"t".data, "e".data⟩], []⟩)
      (build_lock
        [⟨"A".data, ⟨0, [1, 0], none, none, none, none⟩, [⟨"s".data, "d".data⟩], []⟩,
         ⟨"a".data, ⟨0, [2, 0], none, none, none, none⟩, [⟨"t".data, "e".data⟩], []⟩]).validations =
      some ((([⟨"t".data, "e".data⟩] : List Hash)).map Hash.toStr) :=
  claim5_hash_fidelity _
    [⟨"A".data, ⟨0, [1, 0], none, none, none, none⟩, [⟨"s".data, "d".data⟩], []⟩] []
    ⟨"a".data, ⟨0, [2, 0], none, none, none, none⟩, [⟨"t".data, "e".data⟩], []⟩
    rfl (by decide)
/-! ### Second-pass lemmas -/

theorem dictGet_pass2Parent_self (key : List Char) (d : List (List Char × DepEntry))
    (p : List Char) :
    dictGet p (pass2Parent key d p) =
      some (match dictGet p d with
        | some e => ⟨e.python, depInsert key e.deps⟩
        | none => ⟨none, [key]⟩) := by
  rcases hd : dictGet p d with _ | e
  · have h1 : pass2Parent key d p =
        dictModify p (fun e => ⟨e.python, depInsert key e.deps⟩) (dictSet p ⟨none, []⟩ d) := by
      unfold pass2Parent
      rw [hd]
      rfl
    rw [h1, dictGet_dictModify_self, dictGet_dictSet_self, Option.map_some']
    rfl
  · have h1 : pass2Parent key d p =
        dictModify p (fun e => ⟨e.python, depInsert key e.deps⟩) d := by
      unfold pass2Parent
      rw [hd]
      rfl
    rw [h1, dictGet_dictModify_self, hd, Option.map_some']

theorem dictGet_pass2Parent_ne (key q p : List Char) (d : List (List Char × DepEntry))
    (h : q ≠ p) : dictGet q (pass2Parent key d p) = dictGet q d := by
  unfold pass2Parent
  by_cases hd : (dictGet p d).isSome = true
  · rw [if_pos hd, dictGet_dictModify_ne _ _ _ _ h]
  · rw [if_neg hd, dictGet_dictModify_ne _ _ _ _ h, dictGet_dictSet_ne _ _ _ _ h]

/-- Membership in a nested edge mapping of the dependencies dict. -/
def depsMem (x q : List Char) (d : List (List Char × DepEntry)) : Prop :=
  ∃ e, dictGet q d = some e ∧ x ∈ e.deps

theorem depInsert_mem (x key : List Char) (l : List (List Char)) :
    x ∈ depInsert key l ↔ x ∈ l ∨ x = key := by
  unfold depInsert
  by_cases h : key ∈ l
  · rw [if_pos h]
    constructor
    · exact Or.inl
    · rintro (h2 | rfl)
      · exact h2
      · exact h
  · rw [if_neg h]
    simp [List.mem_append]

theorem depsMem_pass2Parent (x key q p : List Char) (d : List (List Char × DepEntry)) :
    depsMem x q (pass2Parent key d p) ↔ depsMem x q d ∨ (q = p ∧ x = key) := by
  by_cases hqp : q = p
  · subst hqp
    unfold depsMem
    rw [dictGet_pass2Parent_self]
    rcases hd : dictGet q d with _ | e
    · simp [depInsert_mem]
    · simp [depInsert_mem]
  · unfold depsMem
    rw [dictGet_pass2Parent_ne _ _ _ _ hqp]
    simp [hqp]

theorem depsMem_innerFold (x key q : List Char) (ps : List (List Char)) :
    ∀ d : List (List Char × DepEntry),
      depsMem x q (ps.foldl (pass2Parent key) d) ↔ depsMem x q d ∨ (q ∈ ps ∧ x = key) := by
  induction ps with
  | nil =>
    intro d
    simp
  | cons p ps ih =>
    intro d
    rw [List.foldl_cons, ih, depsMem_pass2Parent]
    simp only [List.mem_cons]
    tauto

theorem depsMem_pass2 (x q : List Char) (cs : List Candidate) :
    ∀ lk : Lock,
      depsMem x q (cs.foldl pass2Step lk).dependencies ↔
        depsMem x q lk.dependencies ∨ ∃ c ∈ cs, q ∈ c.parents ∧ x = mkKey c := by
  induction cs with
  | nil =>
    intro lk
    simp
  | cons c cs ih =>
    intro lk
    rw [List.foldl_cons, ih,
      show (pass2Step lk c).dependencies =
        c.parents.foldl (pass2Parent (mkKey c)) lk.dependencies from rfl,
      depsMem_innerFold]
    simp only [List.exists_mem_cons_iff]
    tauto

theorem python_pass2Parent (key q p : List Char) (d : List (List Char × DepEntry)) :
    (dictGet q (pass2Parent key d p)).map DepEntry.python =
      ((dictGet q d).map DepEntry.python).or (if q = p then some none else none) := by
  by_cases hqp : q = p
  · subst hqp
    rw [dictGet_pass2Parent_self, if_pos rfl, Option.map_some']
    rcases hd : dictGet q d with _ | e
    · rfl
    · rfl
  · rw [dictGet_pass2Parent_ne _ _ _ _ hqp, if_neg hqp]
    cases dictGet q d <;> rfl

theorem python_innerFold (key q : List Char) (ps : List (List Char)) :
    ∀ d : List (List Char × DepEntry),
      (dictGet q (ps.foldl (pass2Parent key) d)).map DepEntry.python =
        ((dictGet q d).map DepEntry.python).or (if q ∈ ps then some none else none) := by
  induction ps with
  | nil =>
    intro d
    simp
  | cons p ps ih =>
    intro d
    rw [List.foldl_cons, ih, python_pass2Parent, Option.or_assoc]
    congr 1
    by_cases h1 : q = p
    · subst h1
      rw [if_pos rfl, Option.or_some, if_pos (List.mem_cons_self q ps)]
    · rw [if_neg h1, Option.none_or]
      simp [List.mem_cons, h1]

theorem python_pass2 (q : List Char) (cs : List Candidate) :
    ∀ lk : Lock,
      (dictGet q (cs.foldl pass2Step lk).dependencies).map DepEntry.python =
        ((dictGet q lk.dependencies).map DepEntry.python).or
          (if ∃ c ∈ cs, q ∈ c.parents then some none else none) := by
  induction cs with
  | nil =>
    intro lk
    simp
  | cons c cs ih =>
    intro lk
    rw [List.foldl_cons, ih,
      show (pass2Step lk c).dependencies =
        c.parents.foldl (pass2Parent (mkKey c)) lk.dependencies from rfl,
      python_innerFold, Option.or_assoc]
    congr 1
    by_cases h1 : q ∈ c.parents
    · rw [if_pos h1, Option.or_some, if_pos ⟨c, List.mem_cons_self c cs, h1⟩]
    · rw [if_neg h1, Option.none_or]
      by_cases h2 : ∃ c2 ∈ cs, q ∈ c2.parents
      · rcases h2 with ⟨c2, hc2, hq⟩
        rw [if_pos ⟨c2, hc2, hq⟩, if_pos ⟨c2, List.mem_cons_of_mem c hc2, hq⟩]
      · rw [if_neg h2, if_neg ?_]
        rintro ⟨c2, hc2, hq⟩
        rcases List.mem_cons.mp hc2 with rfl | hc2
        · exact h1 hq
        · exact h2 ⟨c2, hc2, hq⟩

theorem isSome_map_python (x : Option DepEntry) :
    (x.map DepEntry.python).isSome = x.isSome := by
  cases x <;> rfl

theorem isSome_pass2 (q : List Char) (cs : List Candidate) (lk : Lock) :
    (dictGet q (cs.foldl pass2Step lk).dependencies).isSome = true ↔
      (dictGet q lk.dependencies).isSome = true ∨ ∃ c ∈ cs, q ∈ c.parents := by
  have h := python_pass2 q cs lk
  have h2 : (dictGet q (cs.foldl pass2Step lk).dependencies).isSome =
      (((dictGet q lk.dependencies).map DepEntry.python).or
        (if ∃ c ∈ cs, q ∈ c.parents then some none else none)).isSome := by
    rw [← isSome_map_python, h]
  rw [h2]
  rcases hd : dictGet q lk.dependencies with _ | e
  · by_cases hex : ∃ c ∈ cs, q ∈ c.parents
    · rw [if_pos hex]
      simp [hex]
    · rw [if_neg hex]
      simp [hex]
  · simp

/-- Shared helper: the validations entry of the last candidate of a
canonical name. -/
theorem build_validations_last (cs pre post : List Candidate) (c : Candidate)
    (hsplit : cs = pre ++ c :: post) (hlast : ∀ c2 ∈ post, mkKey c2 ≠ mkKey c) :
    dictGet (mkKey c) (build_lock cs).validations = some (c.hashes.map Hash.toStr) := by
  unfold build_lock
  rw [pass2_validations, pass1_validations_get, hsplit, List.filter_append]
  rw [List.filter_cons_of_pos (by simp)]
  have hpost : List.filter (fun c2 => mkKey c2 == mkKey c) post = [] := by
    rw [List.filter_eq_nil_iff]
    intro c2 h2
    simp [hlast c2 h2]
  rw [hpost, List.getLast?_concat]
  rfl

/-- Shared helper: the distribution identity of the last candidate of a
canonical name survives the edge pass. -/
theorem build_python_last (cs pre post : List Candidate) (c : Candidate)
    (hsplit : cs = pre ++ c :: post) (hlast : ∀ c2 ∈ post, mkKey c2 ≠ mkKey c) :
    (dictGet (mkKey c) (build_lock cs).dependencies).map DepEntry.python =
      some (some (distOf c)) := by
  unfold build_lock
  rw [python_pass2, pass1_dependencies_get, hsplit, List.filter_append]
  rw [List.filter_cons_of_pos (by simp)]
  have hpost : List.filter (fun c2 => mkKey c2 == mkKey c) post = [] := by
    rw [List.filter_eq_nil_iff]
    intro c2 h2
    simp [hlast c2 h2]
  rw [hpost, List.getLast?_concat]
  simp

/-- C6: when several candidates share a canonical name, the built
document keeps the distribution entry and the validations list of the
last such candidate in the list. -/
theorem claim6_last_candidate_wins (cs pre post : List Candidate) (c : Candidate)
    (hsplit : cs = pre ++ c :: post) (hlast : ∀ c2 ∈ post, mkKey c2 ≠ mkKey c) :
    ∃ e, dictGet (mkKey c) (build_lock cs).dependencies = some e ∧
      e.python = some (distOf c) ∧
      dictGet (mkKey c) (build_lock cs).validations = some (c.hashes.map Hash.toStr) := by
  have hpy := build_python_last cs pre post c hsplit hlast
  rcases Option.map_eq_some'.mp hpy with ⟨e, he, hpe⟩
  exact ⟨e, he, hpe, build_validations_last cs pre post c hsplit hlast⟩

/-- Witness for C6: the later of two candidates spelling the same
canonical name supplies the recorded distribution and hashes. -/
theorem claim6_witness :
    ∃ e, dictGet (mkKey ⟨"b".data, ⟨0, [3, 0], none, none, none, none⟩,
        [⟨"u".data, "f".data⟩], []⟩)
      (build_lock
        [⟨"B".data, ⟨0, [1, 0], none, none, none, none⟩, [⟨"s".data, "d".data⟩], []⟩,
         ⟨"b".data, ⟨0, [3, 0], none, none, none, none⟩,
           [⟨"u".data, "f".data⟩], []⟩]).dependencies = some e ∧
      e.python = some (distOf ⟨"b".data, ⟨0, [3, 0], none, none, none, none⟩,
        [⟨"u".data, "f".data⟩], []⟩) ∧
      dictGet (mkKey ⟨"b".data, ⟨0, [3, 0], none, none, none, none⟩,
        [⟨"u".data, "f".data⟩], []⟩)
        (build_lock
          [⟨"B".data, ⟨0, [1, 0], none, none, none, none⟩, [⟨"s".data, "d".data⟩], []⟩,
           ⟨"b".data, ⟨0, [3, 0], none, none, none, none⟩,
             [⟨"u".data, "f".data⟩], []⟩]).validations =
        some ((([⟨"u".data, "f".data⟩] : List Hash)).map Hash.toStr) :=
  claim6_last_candidate_wins _
    [⟨"B".data, ⟨0, [1, 0], none, none, none, none⟩, [⟨"s".data, "d".data⟩], []⟩] []
    ⟨"b".data, ⟨0, [3, 0], none, none, none, none⟩, [⟨"u".data, "f".data⟩], []⟩
    rfl (by decide)

/-- C4: every name in any candidate parent set is a key of the built
dependencies mapping; when the name was never itself a pinned
candidate, its entry is the synthesized bare one, carrying no
distribution identity (its `python` field is absent) and no validations
entry. -/
theorem claim4_graph_closure (cs : List Candidate) (c : Candidate) (p : List Char)
    (hc : c ∈ cs) (hp : p ∈ c.parents) :
    (dictGet p (build_lock cs).dependencies).isSome = true ∧
      ((∀ c2 ∈ cs, mkKey c2 ≠ p) →
        (dictGet p (build_lock cs).dependencies).map DepEntry.python = some none ∧
        dictGet p (build_lock cs).validations = none) := by
  unfold build_lock
  constructor
  · exact (isSome_pass2 p cs _).mpr (Or.inr ⟨c, hc, hp⟩)
  · intro hnone
    have hfilter : List.filter (fun c2 => mkKey c2 == p) cs = [] := by
      rw [List.filter_eq_nil_iff]
      intro c2 h2
      simp [hnone c2 h2]
    constructor
    · rw [python_pass2, pass1_dependencies_get, hfilter]
      rw [if_pos ⟨c, hc, hp⟩]
      rfl
    · rw [pass2_validations, pass1_validations_get, hfilter]
      rfl

/-- Witness for C4 at a one-candidate list whose parent was never a
pinned candidate. -/
theorem claim4_witness :
    (dictGet "b".data (build_lock
        [⟨"a".data, ⟨0, [1, 0], none, none, none, none⟩, [], ["b".data]⟩]).dependencies).isSome =
      true ∧
      ((∀ c2 ∈ [(⟨"a".data, ⟨0, [1, 0], none, none, none, none⟩, [], ["b".data]⟩ : Candidate)],
          mkKey c2 ≠ "b".data) →
        (dictGet "b".data (build_lock
          [⟨"a".data, ⟨0, [1, 0], none, none, none, none⟩, [],
            ["b".data]⟩]).dependencies).map DepEntry.python = some none ∧
        dictGet "b".data (build_lock
          [⟨"a".data, ⟨0, [1, 0], none, none, none, none⟩, [], ["b".data]⟩]).validations =
          none) :=
  claim4_graph_closure
    [⟨"a".data, ⟨0, [1, 0], none, none, none, none⟩, [], ["b".data]⟩]
    ⟨"a".data, ⟨0, [1, 0], none, none, none, none⟩, [], ["b".data]⟩
    "b".data (by decide) (by decide)

/-! ### Continuation-splitting lemmas -/

theorem dropWhile_length_le {α : Type u} (p : α → Bool) (l : List α) :
    (l.dropWhile p).length ≤ l.length := by
  induction l with
  | nil => exact Nat.le_refl _
  | cons a l ih =>
    rw [List.dropWhile_cons]
    by_cases h : p a = true
    · rw [if_pos h]
      exact Nat.le_trans ih (Nat.le_succ _)
    · rw [if_neg h]

theorem head_not_space_of_fixed (l : List Char) (h : pyLStrip l = l) (hne : l ≠ []) :
    ∃ c t, l = c :: t ∧ pyIsSpace c = false := by
  rcases l with _ | ⟨c, t⟩
  · exact absurd rfl hne
  · refine ⟨c, t, rfl, ?_⟩
    by_cases hc : pyIsSpace c = true
    · exfalso
      unfold pyLStrip at h
      rw [List.dropWhile_cons, if_pos hc] at h
      have h2 := dropWhile_length_le pyIsSpace t
      rw [h] at h2
      exact absurd h2 (Nat.not_succ_le_self _)
    · simpa using hc

theorem lstrip_append_fixed (a b : List Char) (hb : pyLStrip b = b) :
    pyLStrip (a ++ b) = pyLStrip a ++ b := by
  unfold pyLStrip at hb ⊢
  rw [List.dropWhile_append]
  by_cases h : (List.dropWhile pyIsSpace a).isEmpty = true
  · rw [if_pos h, hb]
    rw [List.isEmpty_iff] at h
    rw [h, List.nil_append]
  · rw [if_neg h]

theorem rstrip_append (a b : List Char) (hb : pyRStrip b ≠ []) :
    pyRStrip (a ++ b) = a ++ pyRStrip b := by
  unfold pyRStrip at hb ⊢
  rw [List.reverse_append, List.dropWhile_append]
  by_cases h : (List.dropWhile pyIsSpace b.reverse).isEmpty = true
  · exfalso
    apply hb
    rw [List.isEmpty_iff] at h
    rw [h]
    rfl
  · rw [if_neg h, List.reverse_append, List.reverse_reverse]

theorem rstrip_ne_nil (c : Char) (t : List Char) (hc : pyIsSpace c = false) :
    pyRStrip (c :: t) ≠ [] := by
  intro h
  unfold pyRStrip at h
  rw [List.reverse_eq_nil_iff, List.dropWhile_eq_nil_iff] at h
  have h2 := h c (List.mem_reverse.mpr (List.mem_cons_self c t))
  rw [hc] at h2
  cases h2

theorem strip_concat_backslash (x : List Char) :
    pyStrip (x ++ ['\\']) = pyLStrip x ++ ['\\'] := by
  unfold pyStrip
  rw [lstrip_append_fixed x ['\\'] rfl, rstrip_append _ ['\\'] (by decide)]
  rfl

/-- Merging a continuation remainder into the accumulator is the same as
prepending it to the next physical line, provided that line keeps no
leading whitespace and is nonempty. -/
theorem iterLinesGo_merge (curr a b : List Char) (rest : List (List Char))
    (hb : pyLStrip b = b) (hne : b ≠ []) :
    iterLinesGo (curr ++ pyLStrip a) (b :: rest) = iterLinesGo curr ((a ++ b) :: rest) := by
  obtain ⟨c, t, rfl, hc⟩ := head_not_space_of_fixed b hb hne
  have hrne : pyRStrip (c :: t) ≠ [] := rstrip_ne_nil c t hc
  have hsb : pyStrip (c :: t) = pyRStrip (c :: t) := by
    unfold pyStrip
    rw [hb]
  have hsab : pyStrip (a ++ c :: t) = pyLStrip a ++ pyRStrip (c :: t) := by
    unfold pyStrip
    rw [lstrip_append_fixed a _ hb, rstrip_append _ _ hrne]
  rw [iterLinesGo, iterLinesGo, hsb, hsab]
  rw [if_neg hrne,
    if_neg (show ¬pyLStrip a ++ pyRStrip (c :: t) = [] from
      fun h => hrne (List.append_eq_nil.mp h).2)]
  have hgl : (pyLStrip a ++ pyRStrip (c :: t)).getLast? = (pyRStrip (c :: t)).getLast? := by
    rw [List.getLast?_append]
    rcases hz : (pyRStrip (c :: t)).getLast? with _ | z
    · exact absurd (List.getLast?_eq_none_iff.mp hz) hrne
    · rfl
  rw [hgl]
  by_cases hbs : (pyRStrip (c :: t)).getLast? = some '\\'
  · rw [if_pos hbs, if_pos hbs]
    have hdl : (pyLStrip a ++ pyRStrip (c :: t)).dropLast =
        pyLStrip a ++ (pyRStrip (c :: t)).dropLast := by
      rw [List.dropLast_append, if_neg (by intro h; exact hrne (List.isEmpty_iff.mp h))]
    rw [hdl, List.append_assoc]
  · rw [if_neg hbs, if_neg hbs]
    simp only [List.append_assoc]

/-- The physical lines of a piece list under trailing-backslash
continuation: every piece but the last gets a backslash appended. -/
def contSplit : List (List Char) → List (List Char)
  | [] => []
  | [p] => [p]
  | p :: ps => (p ++ ['\\']) :: contSplit ps

theorem flatten_fixed (ps : List (List Char)) (h : ∀ q ∈ ps, pyLStrip q = q) :
    pyLStrip ps.flatten = ps.flatten := by
  induction ps with
  | nil => rfl
  | cons q ps ih =>
    rw [List.flatten_cons,
      lstrip_append_fixed _ _ (ih fun r hr => h r (List.mem_cons_of_mem q hr)),
      h q (List.mem_cons_self q ps)]

theorem flatten_ne_nil (ps : List (List Char)) (z : List Char) (hz : ps.getLast? = some z)
    (hnz : z ≠ []) : ps.flatten ≠ [] := by
  induction ps with
  | nil => cases hz
  | cons q ps ih =>
    rcases ps with _ | ⟨r, ps⟩
    · rw [List.getLast?_singleton] at hz
      cases hz
      rw [List.flatten_cons, List.flatten_nil, List.append_nil]
      exact hnz
    · rw [List.getLast?_cons_cons] at hz
      intro h
      rw [List.flatten_cons] at h
      exact ih hz (List.append_eq_nil.mp h).2

/-- Processing the split pieces equals processing the joined logical
line, provided each continuation piece keeps no leading whitespace and
the final piece is nonempty. -/
theorem iterLinesGo_contSplit (ps : List (List Char)) :
    ∀ (p curr : List Char) (rest : List (List Char)),
      (∀ q ∈ ps, pyLStrip q = q) → ps.getLast? ≠ some [] →
      iterLinesGo curr (contSplit (p :: ps) ++ rest) =
        iterLinesGo curr ((p ++ ps.flatten) :: rest) := by
  induction ps with
  | nil =>
    intro p curr rest h1 h2
    rw [show contSplit [p] = [p] from rfl, List.flatten_nil, List.append_nil]
    rfl
  | cons q ps ih =>
    intro p curr rest h1 h2
    rw [show contSplit (p :: q :: ps) = (p ++ ['\\']) :: contSplit (q :: ps) from rfl]
    rw [List.cons_append, iterLinesGo, strip_concat_backslash]
    rw [if_neg (by intro h; cases (List.append_eq_nil.mp h).2)]
    rw [if_pos (List.getLast?_concat _), List.dropLast_concat]
    rw [ih q (curr ++ pyLStrip p) rest
      (fun r hr => h1 r (List.mem_cons_of_mem q hr))
      (by
        rcases ps with _ | ⟨r, ps⟩
        · intro h
          cases h
        · rw [List.getLast?_cons_cons] at h2
          exact h2)]
    have hqlast : ∃ z, (q :: ps).getLast? = some z ∧ z ≠ [] := by
      rcases hz : (q :: ps).getLast? with _ | z
      · exact absurd (List.getLast?_eq_none_iff.mp hz) (by intro h; cases h)
      · exact ⟨z, rfl, by intro h; rw [h] at hz; exact h2 hz⟩
    rcases hqlast with ⟨z, hz, hnz⟩
    have hbne : q ++ ps.flatten ≠ [] := by
      have := flatten_ne_nil (q :: ps) z hz hnz
      rw [List.flatten_cons] at this
      exact this
    have hbfix : pyLStrip (q ++ ps.flatten) = q ++ ps.flatten := by
      have := flatten_fixed (q :: ps) h1
      rw [List.flatten_cons] at this
      exact this
    rw [iterLinesGo_merge curr p (q ++ ps.flatten) rest hbfix hbne, List.flatten_cons]

/-- The accumulator value held by the assembler after a list of
physical lines. -/
def iterLinesState (curr : List Char) : List (List Char) → List Char
  | [] => curr
  | l :: ls =>
    if pyStrip l = [] then iterLinesState curr ls
    else if (pyStrip l).getLast? = some '\\' then
      iterLinesState (curr ++ (pyStrip l).dropLast) ls
    else iterLinesState [] ls

theorem iterLinesGo_append (xs : List (List Char)) :
    ∀ (curr : List Char) (ys : List (List Char)),
      iterLinesGo curr (xs ++ ys) =
        iterLinesGo curr xs ++ iterLinesGo (iterLinesState curr xs) ys := by
  induction xs with
  | nil =>
    intro curr ys
    rfl
  | cons l ls ih =>
    intro curr ys
    rw [List.cons_append, iterLinesGo, iterLinesGo, iterLinesState]
    by_cases h1 : pyStrip l = []
    · rw [if_pos h1, if_pos h1, if_pos h1, ih]
    · rw [if_neg h1, if_neg h1, if_neg h1]
      by_cases h2 : (pyStrip l).getLast? = some '\\'
      · rw [if_pos h2, if_pos h2, if_pos h2, ih]
      · rw [if_neg h2, if_neg h2, if_neg h2]
        by_cases h3 : curr ++ pyStrip l ≠ [] ∧ (curr ++ pyStrip l).head? ≠ some '#'
        · rw [if_pos h3, if_pos h3, ih, List.cons_append]
        · rw [if_neg h3, if_neg h3, ih]

/-- C3 fails as stated: splitting the logical line immediately before
its whitespace (so the continuation piece starts with a space, which
the assembler strips) changes the parse.  The pieces join to the
original logical line, yet the split text fails to parse while the one
line text parses to a candidate. -/
theorem claim3_counterexample :
    ("a==1.0".data ++ " --hash=s:d # via b".data =
        "a==1.0 --hash=s:d # via b".data) ∧
      iter_candidates (contSplit ["a==1.0".data, " --hash=s:d # via b".data]) ≠
        iter_candidates ["a==1.0 --hash=s:d # via b".data] := by
  refine ⟨rfl, fun h => ?_⟩
  rw [show iter_candidates (contSplit ["a==1.0".data, " --hash=s:d # via b".data]) =
      .error .badVersionString from rfl] at h
  rw [show iter_candidates ["a==1.0 --hash=s:d # via b".data] =
      .ok [⟨"a".data, ⟨0, [1, 0], none, none, none, none⟩, [⟨"s".data, "d".data⟩],
        ["b".data]⟩] from rfl] at h
  exact Except.noConfusion h

/-- C3 amended: splitting one logical line of a requirement text across
several physical lines with trailing backslashes parses identically to
the same content on one physical line, provided each piece after the
first begins with a non-whitespace character (the assembler strips each
physical line, so whitespace at a split boundary must stay at the end
of the earlier piece) and the final piece is nonempty. -/
theorem claim3_amended_split (pre post : List (List Char)) (p : List Char)
    (ps : List (List Char)) (h1 : ∀ q ∈ ps, pyLStrip q = q)
    (h2 : ps.getLast? ≠ some []) :
    iter_candidates (pre ++ contSplit (p :: ps) ++ post) =
      iter_candidates (pre ++ (p ++ ps.flatten) :: post) := by
  unfold iter_candidates iter_candidate_lines
  rw [List.append_assoc, iterLinesGo_append, iterLinesGo_contSplit ps p _ post h1 h2,
    ← iterLinesGo_append]

/-- Witness for the amended C3 on a concrete two-piece split inside a
larger text. -/
theorem claim3_witness :
    ((∀ q ∈ [("--hash=s:d # via b".data : List Char)], pyLStrip q = q) ∧
      ([("--hash=s:d # via b".data : List Char)] : List (List Char)).getLast? ≠ some []) ∧
    iter_candidates (["x==1 # via y".data] ++
        contSplit ["a==1.0 ".data, "--hash=s:d # via b".data] ++ ["z==3.0".data]) =
      iter_candidates (["x==1 # via y".data] ++
        ("a==1.0 ".data ++
          ([("--hash=s:d # via b".data : List Char)] : List (List Char)).flatten) ::
          ["z==3.0".data]) :=
  ⟨⟨by decide, by decide⟩,
   claim3_amended_split ["x==1 # via y".data] ["z==3.0".data] "a==1.0 ".data
     ["--hash=s:d # via b".data] (by decide) (by decide)⟩

/-! ### Determinism lemmas -/

theorem dictGet_mapValues {α β : Type} (f : α → β) (k : List Char)
    (l : List (List Char × α)) :
    dictGet k (l.map fun p => (p.1, f p.2)) = (dictGet k l).map f := by
  induction l with
  | nil => rfl
  | cons p rest ih =>
    obtain ⟨k2, v⟩ := p
    rw [List.map_cons]
    by_cases h : k2 = k
    · rw [dictGet_cons, if_pos h, dictGet_cons, if_pos h, Option.map_some']
    · rw [dictGet_cons, if_neg h, dictGet_cons, if_neg h, ih]

theorem map_fst_mapValues {α β : Type} (f : α → β) (l : List (List Char × α)) :
    (l.map fun p => (p.1, f p.2)).map Prod.fst = l.map Prod.fst := by
  rw [List.map_map]
  exact List.map_congr_left fun p _ => rfl

theorem keysNodup_pass1_validations (cs : List Candidate) :
    ∀ lk : Lock, (lk.validations.map Prod.fst).Nodup →
      ((cs.foldl pass1Step lk).validations.map Prod.fst).Nodup := by
  induction cs with
  | nil => exact fun lk h => h
  | cons c cs ih =>
    intro lk h
    rw [List.foldl_cons]
    exact ih _ (keysNodup_dictSet _ _ _ h)

theorem keysNodup_pass1_dependencies (cs : List Candidate) :
    ∀ lk : Lock, (lk.dependencies.map Prod.fst).Nodup →
      ((cs.foldl pass1Step lk).dependencies.map Prod.fst).Nodup := by
  induction cs with
  | nil => exact fun lk h => h
  | cons c cs ih =>
    intro lk h
    rw [List.foldl_cons]
    exact ih _ (keysNodup_dictSet _ _ _ h)

theorem keysNodup_pass2Parent (key p : List Char) (d : List (List Char × DepEntry))
    (h : (d.map Prod.fst).Nodup) : ((pass2Parent key d p).map Prod.fst).Nodup := by
  unfold pass2Parent
  rw [keys_dictModify]
  by_cases hd : (dictGet p d).isSome = true
  · rw [if_pos hd]
    exact h
  · rw [if_neg hd]
    exact keysNodup_dictSet _ _ _ h

theorem keysNodup_innerFold (key : List Char) (ps : List (List Char)) :
    ∀ d : List (List Char × DepEntry), (d.map Prod.fst).Nodup →
      (((ps.foldl (pass2Parent key) d)).map Prod.fst).Nodup := by
  induction ps with
  | nil => exact fun d h => h
  | cons p ps ih =>
    intro d h
    rw [List.foldl_cons]
    exact ih _ (keysNodup_pass2Parent key p d h)

theorem keysNodup_pass2 (cs : List Candidate) :
    ∀ lk : Lock, (lk.dependencies.map Prod.fst).Nodup →
      ((cs.foldl pass2Step lk).dependencies.map Prod.fst).Nodup := by
  induction cs with
  | nil => exact fun lk h => h
  | cons c cs ih =>
    intro lk h
    rw [List.foldl_cons]
    exact ih _ (keysNodup_innerFold _ _ _ h)

theorem keysNodup_build_dependencies (cs : List Candidate) :
    (((build_lock cs).dependencies).map Prod.fst).Nodup := by
  unfold build_lock
  exact keysNodup_pass2 cs _ (keysNodup_pass1_dependencies cs _ (by simp))

theorem keysNodup_build_validations (cs : List Candidate) :
    (((build_lock cs).validations).map Prod.fst).Nodup := by
  unfold build_lock
  rw [pass2_validations]
  exact keysNodup_pass1_validations cs _ (by simp)

theorem depInsert_nodup (key : List Char) (l : List (List Char)) (h : l.Nodup) :
    (depInsert key l).Nodup := by
  unfold depInsert
  by_cases hm : key ∈ l
  · rw [if_pos hm]
    exact h
  · rw [if_neg hm]
    rw [List.nodup_append]
    refine ⟨h, List.nodup_singleton key, ?_⟩
    intro a ha hb
    rw [List.mem_singleton] at hb
    subst hb
    exact hm ha

theorem depsNodup_pass2Parent (key p : List Char) (d : List (List Char × DepEntry))
    (h : ∀ q e, dictGet q d = some e → e.deps.Nodup) :
    ∀ q e, dictGet q (pass2Parent key d p) = some e → e.deps.Nodup := by
  intro q e hget
  by_cases hqp : q = p
  · subst hqp
    rw [dictGet_pass2Parent_self] at hget
    rcases hd : dictGet q d with _ | e0 <;> rw [hd] at hget
    · cases hget
      simp
    · cases hget
      exact depInsert_nodup key e0.deps (h q e0 hd)
  · rw [dictGet_pass2Parent_ne _ _ _ _ hqp] at hget
    exact h q e hget

theorem depsNodup_innerFold (key : List Char) (ps : List (List Char)) :
    ∀ d : List (List Char × DepEntry), (∀ q e, dictGet q d = some e → e.deps.Nodup) →
      ∀ q e, dictGet q (ps.foldl (pass2Parent key) d) = some e → e.deps.Nodup := by
  induction ps with
  | nil => exact fun d h => h
  | cons p ps ih =>
    intro d h
    rw [List.foldl_cons]
    exact ih _ (depsNodup_pass2Parent key p d h)

theorem depsNodup_pass2 (cs : List Candidate) :
    ∀ lk : Lock, (∀ q e, dictGet q lk.dependencies = some e → e.deps.Nodup) →
      ∀ q e, dictGet q (cs.foldl pass2Step lk).dependencies = some e → e.deps.Nodup := by
  induction cs with
  | nil => exact fun lk h => h
  | cons c cs ih =>
    intro lk h
    rw [List.foldl_cons]
    exact ih _ (depsNodup_innerFold _ _ _ h)

theorem depsNodup_pass1_init (cs : List Candidate) :
    ∀ q e, dictGet q (cs.foldl pass1Step
        (⟨lockSources, [], []⟩ : Lock)).dependencies = some e → e.deps.Nodup := by
  intro q e hget
  rw [pass1_dependencies_get] at hget
  rcases hf : (cs.filter fun c => mkKey c == q).getLast? with _ | c <;> rw [hf] at hget
  · cases hget
  · rw [Option.map_some', Option.or_some] at hget
    cases hget
    simp

theorem depsNodup_build (cs : List Candidate) :
    ∀ q e, dictGet q (build_lock cs).dependencies = some e → e.deps.Nodup := by
  unfold build_lock
  exact depsNodup_pass2 cs _ (depsNodup_pass1_init cs)

theorem depsMem_pass1_init (x q : List Char) (cs : List Candidate) :
    ¬depsMem x q (cs.foldl pass1Step (⟨lockSources, [], []⟩ : Lock)).dependencies := by
  rintro ⟨e, hget, hx⟩
  rw [pass1_dependencies_get] at hget
  rcases hf : (cs.filter fun c => mkKey c == q).getLast? with _ | c <;> rw [hf] at hget
  · cases hget
  · rw [Option.map_some', Option.or_some] at hget
    cases hget
    simp at hx

theorem depsMem_build (x q : List Char) (cs : List Candidate) :
    depsMem x q (build_lock cs).dependencies ↔
      ∃ c ∈ cs, q ∈ c.parents ∧ x = mkKey c := by
  unfold build_lock
  rw [depsMem_pass2]
  constructor
  · rintro (h | h)
    · exact absurd h (depsMem_pass1_init x q cs)
    · exact h
  · exact Or.inr

theorem exists_mem_perm {α : Type u} {l1 l2 : List α} (h : l1.Perm l2) (P : α → Prop) :
    (∃ x ∈ l1, P x) ↔ ∃ x ∈ l2, P x := by
  constructor <;> rintro ⟨x, hx, hp⟩
  · exact ⟨x, h.mem_iff.mp hx, hp⟩
  · exact ⟨x, h.mem_iff.mpr hx, hp⟩

theorem filter_key_len_le (cs : List Candidate) (k : List Char)
    (hnd : (cs.map mkKey).Nodup) : (cs.filter fun c => mkKey c == k).length ≤ 1 := by
  induction cs with
  | nil => simp
  | cons c cs ih =>
    rw [List.map_cons, List.nodup_cons] at hnd
    by_cases hc : mkKey c = k
    · rw [List.filter_cons_of_pos (by simp [hc])]
      have hnil : cs.filter (fun c2 => mkKey c2 == k) = [] := by
        rw [List.filter_eq_nil_iff]
        intro c2 h2 hbeq
        rw [beq_iff_eq] at hbeq
        exact hnd.1 (List.mem_map.mpr ⟨c2, h2, by rw [hbeq, hc]⟩)
      rw [hnil]
      exact Nat.le_refl 1
    · rw [List.filter_cons_of_neg (by simp [hc])]
      exact ih hnd.2

theorem filter_key_eq (cs1 cs2 : List Candidate) (hperm : cs1.Perm cs2)
    (hnd : (cs1.map mkKey).Nodup) (k : List Char) :
    (cs1.filter fun c => mkKey c == k) = (cs2.filter fun c => mkKey c == k) := by
  have hp := hperm.filter fun c => mkKey c == k
  have hlen := filter_key_len_le cs1 k hnd
  rcases hf : cs1.filter fun c => mkKey c == k with _ | ⟨a, t⟩
  · rw [hf] at hp
    exact hp.nil_eq
  · rw [hf] at hp hlen
    rcases t with _ | ⟨b, t⟩
    · exact (List.perm_singleton.mp hp.symm).symm
    · exfalso
      rw [List.length_cons, List.length_cons] at hlen
      exact absurd hlen (by omega)

theorem sortDict_ext {α : Type} (l1 l2 : List (List Char × α))
    (h1 : (l1.map Prod.fst).Nodup) (h2 : (l2.map Prod.fst).Nodup)
    (hget : ∀ k, dictGet k l1 = dictGet k l2) : sortDict l1 = sortDict l2 := by
  have hmem : ∀ q, q ∈ l1.map Prod.fst ↔ q ∈ l2.map Prod.fst := fun q => by
    rw [← isSome_dictGet_iff_mem, ← isSome_dictGet_iff_mem, hget q]
  have hperm : (l1.map Prod.fst).Perm (l2.map Prod.fst) :=
    (List.perm_ext_iff_of_nodup h1 h2).mpr hmem
  have hsort : sortKeys (l1.map Prod.fst) = sortKeys (l2.map Prod.fst) :=
    List.eq_of_perm_of_sorted
      ((List.perm_insertionSort _ _).trans (hperm.trans (List.perm_insertionSort _ _).symm))
      (List.sorted_insertionSort _ _) (List.sorted_insertionSort _ _)
  unfold sortDict
  rw [hsort]
  exact List.map_congr_left fun k _ => by rw [hget k]

theorem build_python_eq (cs1 cs2 : List Candidate) (hperm : cs1.Perm cs2)
    (hnd : (cs1.map mkKey).Nodup) (k : List Char) :
    (dictGet k (build_lock cs1).dependencies).map DepEntry.python =
      (dictGet k (build_lock cs2).dependencies).map DepEntry.python := by
  unfold build_lock
  rw [python_pass2, python_pass2, pass1_dependencies_get, pass1_dependencies_get,
    filter_key_eq cs1 cs2 hperm hnd k]
  congr 1
  exact if_congr (exists_mem_perm hperm _) rfl rfl

theorem build_validations_eq (cs1 cs2 : List Candidate) (hperm : cs1.Perm cs2)
    (hnd : (cs1.map mkKey).Nodup) (k : List Char) :
    dictGet k (build_lock cs1).validations = dictGet k (build_lock cs2).validations := by
  unfold build_lock
  rw [pass2_validations, pass2_validations, pass1_validations_get, pass1_validations_get,
    filter_key_eq cs1 cs2 hperm hnd k]

theorem build_entry_eq (cs1 cs2 : List Candidate) (hperm : cs1.Perm cs2)
    (hnd : (cs1.map mkKey).Nodup) (k : List Char) :
    (dictGet k (build_lock cs1).dependencies).map entryView =
      (dictGet k (build_lock cs2).dependencies).map entryView := by
  have hpy := build_python_eq cs1 cs2 hperm hnd k
  rcases hget1 : dictGet k (build_lock cs1).dependencies with _ | e1
  · rcases hget2 : dictGet k (build_lock cs2).dependencies with _ | e2
    · rfl
    · rw [hget1, hget2, Option.map_none', Option.map_some'] at hpy
      cases hpy
  · rcases hget2 : dictGet k (build_lock cs2).dependencies with _ | e2
    · rw [hget1, hget2, Option.map_some', Option.map_none'] at hpy
      cases hpy
    · rw [hget1, hget2, Option.map_some', Option.map_some'] at hpy
      have hp : e1.python = e2.python := Option.some.inj hpy
      have hmemd : ∀ x, x ∈ e1.deps ↔ x ∈ e2.deps := by
        intro x
        have h1 := depsMem_build x k cs1
        have h2 := depsMem_build x k cs2
        rw [exists_mem_perm hperm fun c => k ∈ c.parents ∧ x = mkKey c] at h1
        have h3 := h1.trans h2.symm
        unfold depsMem at h3
        rw [hget1, hget2] at h3
        simpa using h3
      have hnd1 : e1.deps.Nodup := depsNodup_build cs1 k e1 hget1
      have hnd2 : e2.deps.Nodup := depsNodup_build cs2 k e2 hget2
      have hdeps : sortKeys e1.deps = sortKeys e2.deps :=
        List.eq_of_perm_of_sorted
          ((List.perm_insertionSort _ _).trans
            (((List.perm_ext_iff_of_nodup hnd1 hnd2).mpr hmemd).trans
              (List.perm_insertionSort _ _).symm))
          (List.sorted_insertionSort _ _) (List.sorted_insertionSort _ _)
      rw [Option.map_some', Option.map_some']
      unfold entryView
      rw [hp, hdeps]

/-- C8: the serialized lock document is a deterministic function of the
candidate list — the build is a pure function, so rebuilding from the
same list is the reflexive instance of this theorem — and rebuilding
from a permutation of a list in which no two candidates share a
canonical name (hence no two share an edge) yields the identical
serialized document, every mapping being emitted in sorted key
order. -/
theorem claim8_determinism (cs1 cs2 : List Candidate) (hperm : cs1.Perm cs2)
    (hnd : (cs1.map mkKey).Nodup) :
    serializeLock (build_lock cs1) = serializeLock (build_lock cs2) := by
  have hsrc : (build_lock cs1).sources = (build_lock cs2).sources := by
    unfold build_lock
    rw [pass2_sources, pass1_sources, pass2_sources, pass1_sources]
  have hdep : sortDict ((build_lock cs1).dependencies.map fun p => (p.1, entryView p.2)) =
      sortDict ((build_lock cs2).dependencies.map fun p => (p.1, entryView p.2)) := by
    apply sortDict_ext
    · rw [map_fst_mapValues]
      exact keysNodup_build_dependencies cs1
    · rw [map_fst_mapValues]
      exact keysNodup_build_dependencies cs2
    · intro k
      rw [dictGet_mapValues, dictGet_mapValues]
      exact build_entry_eq cs1 cs2 hperm hnd k
  have hval : sortDict (build_lock cs1).validations =
      sortDict (build_lock cs2).validations :=
    sortDict_ext _ _ (keysNodup_build_validations cs1) (keysNodup_build_validations cs2)
      (build_validations_eq cs1 cs2 hperm hnd)
  unfold serializeLock
  rw [hsrc, hdep, hval]

/-- Witness for C8 on the two orders of a two-candidate list. -/
theorem claim8_witness :
    serializeLock (build_lock
      [⟨"a".data, ⟨0, [1, 0], none, none, none, none⟩, [⟨"s".data, "d".data⟩], [[]]⟩,
       ⟨"b".data, ⟨0, [2, 0], none, none, none, none⟩, [], ["a".data]⟩]) =
    serializeLock (build_lock
      [⟨"b".data, ⟨0, [2, 0], none, none, none, none⟩, [], ["a".data]⟩,
       ⟨"a".data, ⟨0, [1, 0], none, none, none, none⟩, [⟨"s".data, "d".data⟩], [[]]⟩]) :=
  claim8_determinism _ _ (List.Perm.swap _ _ _) (by decide)

end ReqLock
